import Mathlib

/-
Verification of the argos excerpt (libargos/utils/misc.py,
libargos/widgets/configtreeview.py, libargos/widgets/repotreeview.py).

Strings handled by the misc utilities are modelled as lists of Unicode
code points (natural numbers); the whitespace class is modelled as the
ASCII whitespace characters and lowercasing as the ASCII case map, which
is what the regular expressions in the source act on after the filter
step removes all non ASCII identifier characters.
-/

namespace Argos

namespace Misc

/-- Code point model of Python str.lower restricted to ASCII: the
uppercase letters A(65)..Z(90) map to a(97)..z(122), everything else is
unchanged. -/
def lowerChar (c : Nat) : Nat :=
  if 65 ≤ c ∧ c ≤ 90 then c + 32 else c

/-- Code point model of the regex class backslash-s: space(32),
tab(9), newline(10), vertical tab(11), form feed(12), carriage
return(13). -/
def isSpaceChar (c : Nat) : Bool :=
  decide (c = 32 ∨ c = 9 ∨ c = 10 ∨ c = 11 ∨ c = 12 ∨ c = 13)

/-- Code point model of the regex class A-Za-z0-9_ kept by the final
substitution in string_to_identifier. -/
def isIdentChar (c : Nat) : Bool :=
  decide ((97 ≤ c ∧ c ≤ 122) ∨ (65 ≤ c ∧ c ≤ 90) ∨ (48 ≤ c ∧ c ≤ 57) ∨ c = 95)

/-- Replacement of a hyphen(45) by an underscore(95), the second
substitution in string_to_identifier. -/
def replaceHyphen (c : Nat) : Nat :=
  if c = 45 then 95 else c

/-- Replacement of every maximal run of whitespace by one
underscore(95), the first substitution in string_to_identifier.  The
boolean argument records whether the previous character was part of a
whitespace run. -/
def collapseWhitespaceAux (prevSpace : Bool) : List Nat → List Nat
  | [] => []
  | c :: cs =>
    if isSpaceChar c then
      if prevSpace then collapseWhitespaceAux true cs
      else 95 :: collapseWhitespaceAux true cs
    else c :: collapseWhitespaceAux false cs

/-- Model of re.sub applied with pattern backslash-s-plus and
replacement underscore. -/
def collapseWhitespace (s : List Nat) : List Nat :=
  collapseWhitespaceAux false s

/-- Model of misc.string_to_identifier: lower case, replace whitespace
runs by underscores, replace hyphens by underscores, remove every
character that is not in A-Za-z0-9_. -/
def string_to_identifier (s : List Nat) : List Nat :=
  ((collapseWhitespace (s.map lowerChar)).map replaceHyphen).filter isIdentChar

/-- Model of Python str.startswith applied with the one character
string containing the point(46). -/
def startsWithPoint : List Nat → Bool
  | [] => false
  | c :: _ => c == 46

/-- Model of misc.prepend_point_to_extension: prepend a point(46)
unless the extension already starts with one. -/
def prepend_point_to_extension (extension : List Nat) : List Nat :=
  if startsWithPoint extension then extension else 46 :: extension

/-- A character allowed in the final identifier: a lowercase ASCII
letter, a digit or an underscore. -/
def isLowerIdent (c : Nat) : Prop :=
  (97 ≤ c ∧ c ≤ 122) ∨ (48 ≤ c ∧ c ≤ 57) ∨ c = 95

instance (c : Nat) : Decidable (isLowerIdent c) := by
  unfold isLowerIdent
  infer_instance

end Misc

/-- Assertion failure raised by a violated precondition: the model of
an uncaught Python assert. -/
inductive AssertErr where
  | assertionFailed
deriving DecidableEq

namespace Config

/-- An editor widget handed to the delegate.  The source distinguishes
exactly two cases with isinstance: a CtiEditor and any other regular
widget.  Modelled from the spec: the CtiEditor class lives in
libargos.config.basecti, which is outside the excerpt; only its type
tag and its finalize capability are needed here. -/
inductive Editor where
  | ctiEditor (id : Nat)
  | otherWidget (id : Nat)
deriving DecidableEq

/-- The isinstance(editor, CtiEditor) check of the source. -/
def Editor.isCtiEditor : Editor → Bool
  | .ctiEditor _ => true
  | .otherWidget _ => false

/-- Data roles used by the delegate; the source only ever passes
Qt.EditRole. -/
inductive Role where
  | displayRole
  | editRole
deriving DecidableEq

/-- Result of cti.getEditorValue(editor).  Modelled from the spec:
getEditorValue either returns a value or raises InvalidInputError
(declared in libargos.config.basecti, outside the excerpt). -/
inductive EditorValue (α : Type) where
  | invalidInput (msg : String)
  | ok (v : α)
deriving DecidableEq

/-- Observable effects of ConfigItemDelegate.setModelData: a logged
warning, a write through model.setData, or a direct mutation of the
node bypassing the model.  The last constructor is never emitted by the
code; it exists so that its absence can be stated. -/
inductive CfgEffect (α : Type) where
  | logWarn (msg : String)
  | setDataCall (v : α) (role : Role)
  | nodeDirectWrite (v : α)
deriving DecidableEq

/-- Whether an effect is a model.setData call. -/
def isSetDataCall {α : Type} : CfgEffect α → Bool
  | .setDataCall _ _ => true
  | _ => false

/-- Whether an effect mutates the node directly, bypassing the model. -/
def isNodeDirectWrite {α : Type} : CfgEffect α → Bool
  | .nodeDirectWrite _ => true
  | _ => false

/-- Modelled from the spec: ConfigTreeModel.setData (outside the
excerpt) stores the value for the edit role at the index; the other
effects leave the stored edit role value of the index unchanged. -/
def applyCfgEffect {α : Type} (cell : α) : CfgEffect α → α
  | .setDataCall v Role.editRole => v
  | _ => cell

/-- Model of ConfigItemDelegate.setModelData: ask the node to extract
the editor value; on InvalidInputError log a warning and stop,
otherwise write the value through model.setData with the edit role. -/
def setModelData {α : Type} (extracted : EditorValue α) : List (CfgEffect α) :=
  match extracted with
  | .invalidInput msg => [CfgEffect.logWarn msg]
  | .ok v => [CfgEffect.setDataCall v Role.editRole]

/-- Observable effects of ConfigItemDelegate.paint. -/
inductive PaintEffect (α : Type) where
  | fetchEditRole (v : α)
  | customPaint (painted : Bool)
  | basePaint
deriving DecidableEq

/-- Model of ConfigItemDelegate.paint.  The column constant
ConfigTreeModel.COL_VALUE is outside the excerpt and passed as the
colValue argument; cti_paintDisplayValue models
cti.paintDisplayValue, returning whether the node painted a custom
display for the given edit role value. -/
def paint {α : Type} (colValue : Nat) (col : Nat) (editValue : α)
    (cti_paintDisplayValue : α → Bool) : List (PaintEffect α) :=
  if col = colValue then
    let value := editValue
    let painted := cti_paintDisplayValue value
    [PaintEffect.fetchEditRole value, PaintEffect.customPaint painted]
      ++ (if painted then [] else [PaintEffect.basePaint])
  else [PaintEffect.basePaint]

/-- Observable effects of finalizeEditor and closeEditor. -/
inductive FinEffect where
  | finalizeCall (editor : Editor)
  | logDebugNotCti
  | baseCloseEditor (editor : Editor) (hint : Nat)
deriving DecidableEq

/-- Model of ConfigItemDelegate.finalizeEditor: call editor.finalize()
when the editor is a CtiEditor, otherwise only log. -/
def finalizeEditor (editor : Editor) : List FinEffect :=
  match editor with
  | .ctiEditor i => [FinEffect.finalizeCall (Editor.ctiEditor i)]
  | .otherWidget _ => [FinEffect.logDebugNotCti]

/-- Model of ConfigTreeView.closeEditor: first run the finalize step
of the delegate on the editor, then delegate to the base class close
behavior.  The base behavior is modelled from the spec as the opaque
effect baseCloseEditor. -/
def closeEditor (editor : Editor) (hint : Nat) : List FinEffect :=
  finalizeEditor editor ++ [FinEffect.baseCloseEditor editor hint]

/-- A Qt model index as seen by the delegate: either the invalid index
or a valid one with a row and a column. -/
inductive QModelIndex where
  | invalid
  | valid (row : Nat) (col : Nat)
deriving DecidableEq

/-- The isValid() test of a Qt model index. -/
def QModelIndex.isValid : QModelIndex → Bool
  | .invalid => false
  | .valid _ _ => true

/-- Observable effects of ConfigItemDelegate.createEditor after the
assertion. -/
inductive DelegateEffect where
  | getItemCall
  | ctiCreateEditorCall
deriving DecidableEq

/-- Modelled from the spec: the config tree item returned by
ConfigTreeModel.getItem; only the editor it builds with createEditor is
relevant here. -/
structure CfgNode where
  builtEditor : Editor
deriving DecidableEq

/-- Model of ConfigItemDelegate.createEditor: assert that the index is
valid before anything else, then retrieve the node from the model and
ask it to build an editor bound to this delegate. -/
def createEditor (cti : CfgNode) (index : QModelIndex) :
    List DelegateEffect × Except AssertErr Editor :=
  if index.isValid then
    ([DelegateEffect.getItemCall, DelegateEffect.ctiCreateEditorCall],
      Except.ok cti.builtEditor)
  else ([], Except.error AssertErr.assertionFailed)

end Config

namespace Repo

/-- A location of a node in the repository tree: the list of child
rows leading from the invisible root down to the node.  The empty path
denotes the invisible root itself, which is also what the invalid Qt
index resolves to. -/
abbrev TreePath := List Nat

/-- A repository tree item.  rtiClass models the concrete Python class
of the item, fileName the file it was created from, isFile whether the
node is a file RTI, isOpen whether its underlying resource is
currently open, parentItem whether the item currently has a parent
(None in Python when the flag is false), and children the ordered
child list.  Modelled from the spec: the RTI classes live outside the
excerpt. -/
inductive Rti where
  | mk (rtiClass : Nat) (fileName : String) (isFile : Bool) (isOpen : Bool)
      (parentItem : Bool) (children : List Rti)

/-- Concrete class tag of the item. -/
def Rti.rtiClass : Rti → Nat
  | .mk c _ _ _ _ _ => c

/-- File name the item was created from. -/
def Rti.fileName : Rti → String
  | .mk _ f _ _ _ _ => f

/-- Whether the item is a file RTI. -/
def Rti.isFile : Rti → Bool
  | .mk _ _ b _ _ _ => b

/-- Whether the resource of the item is open. -/
def Rti.isOpen : Rti → Bool
  | .mk _ _ _ b _ _ => b

/-- Whether the item has a parent. -/
def Rti.parentItem : Rti → Bool
  | .mk _ _ _ _ b _ => b

/-- Ordered child list of the item. -/
def Rti.children : Rti → List Rti
  | .mk _ _ _ _ _ cs => cs

/-- The item with its child list replaced. -/
def Rti.withChildren : Rti → List Rti → Rti
  | .mk c f b o p _, cs => .mk c f b o p cs

/-- The item with its open state replaced. -/
def Rti.withOpen : Rti → Bool → Rti
  | .mk c f b _ p cs, o => .mk c f b o p cs

/-- The item with its parent flag replaced. -/
def Rti.withParent : Rti → Bool → Rti
  | .mk c f b o _ cs, p => .mk c f b o p cs

/-- Modelled from the spec: rtiClass.createFromFileName builds a fresh
closed file RTI from a file name, with no parent and no children. -/
def createFromFileName (rtiClass : Nat) (fileName : String) : Rti :=
  Rti.mk rtiClass fileName true false false []

/-- Replace the element at an index of a list, leaving the list
unchanged when the index is out of range. -/
def modifyIdx {α : Type} (f : α → α) : Nat → List α → List α
  | _, [] => []
  | 0, x :: xs => f x :: xs
  | n + 1, x :: xs => x :: modifyIdx f n xs

/-- Remove the element at an index of a list, leaving the list
unchanged when the index is out of range. -/
def removeAt {α : Type} : Nat → List α → List α
  | _, [] => []
  | 0, _ :: xs => xs
  | n + 1, x :: xs => x :: removeAt n xs

/-- Insert an element at an index of a list, appending when the index
is past the end, as Python list.insert does. -/
def insertAt {α : Type} : Nat → α → List α → List α
  | 0, a, l => a :: l
  | _ + 1, a, [] => [a]
  | n + 1, a, x :: xs => x :: insertAt n a xs

/-- The child list of the node reached by a path, where the empty path
reaches the invisible root whose child list is the forest itself. -/
def childrenAtParent : List Rti → TreePath → Option (List Rti)
  | forest, [] => some forest
  | forest, i :: rest =>
    match forest[i]? with
    | some n => childrenAtParent n.children rest
    | none => none

/-- The node reached by a path: the entry of its parent child list at
the last row of the path.  The empty path reaches no node. -/
def getNode (forest : List Rti) (p : TreePath) : Option Rti :=
  match p.getLast? with
  | none => none
  | some pos => (childrenAtParent forest p.dropLast).bind fun cs => cs[pos]?

/-- Rewrite the child list of the node reached by a path with a
function, leaving the forest unchanged when the path does not
resolve. -/
def updateChildrenAt : List Rti → TreePath → (List Rti → List Rti) → List Rti
  | forest, [], f => f forest
  | forest, i :: rest, f =>
    modifyIdx (fun n => n.withChildren (updateChildrenAt n.children rest f)) i forest

/-- Rewrite the node reached by a path with a function, leaving the
forest unchanged when the path is empty. -/
def updateNodeAt (forest : List Rti) (p : TreePath) (f : Rti → Rti) : List Rti :=
  match p.getLast? with
  | none => forest
  | some pos => updateChildrenAt forest p.dropLast (modifyIdx f pos)

/-- Remove the node reached by a path from the child list of its
parent. -/
def deleteAtPath (forest : List Rti) (p : TreePath) : List Rti :=
  match p.getLast? with
  | none => forest
  | some pos => updateChildrenAt forest p.dropLast (removeAt pos)

/-- State of the repository view: the tree owned by the model, the
current index of the selection model as a path, and the set of paths
the view displays expanded. -/
structure RepoState where
  forest : List Rti
  current : TreePath
  expanded : List TreePath

/-- Modelled from the spec: RepoTreeModel.deleteItemByIndex closes the
resources of the subtree transitively and removes it from the tree;
after removal no node of the subtree is part of the model any more. -/
def deleteItemByIndexState (st : RepoState) (p : TreePath) : RepoState :=
  { st with forest := deleteAtPath st.forest p }

/-- Modelled from the spec: RepoTreeModel.insertItem inserts the item
at the given position in the child list of the node at parentIndex,
appending when no position is given, sets the parent reference of the
inserted item, and returns the index of the inserted item. -/
def insertItem (st : RepoState) (item : Rti) (position : Option Nat)
    (parentIndex : TreePath) : RepoState × TreePath :=
  let cs := (childrenAtParent st.forest parentIndex).getD []
  let pos := match position with
    | none => cs.length
    | some k => min k cs.length
  ({ st with
      forest := updateChildrenAt st.forest parentIndex (insertAt pos (item.withParent true)) },
    parentIndex ++ [pos])

/-- Modelled from the spec: RepoTreeModel.removeAllChildrenAtIndex
closes and removes every child subtree of the node at the index. -/
def removeAllChildrenAtIndex (forest : List Rti) (p : TreePath) : List Rti :=
  updateNodeAt forest p (fun n => n.withChildren [])

/-- Modelled from the spec: RTI.open acquires the resource of the
item. -/
def openItemAt (forest : List Rti) (p : TreePath) : List Rti :=
  updateNodeAt forest p (fun n => n.withOpen true)

/-- Modelled from the spec: RTI.close releases the resource of the
item. -/
def closeItemAt (forest : List Rti) (p : TreePath) : List Rti :=
  updateNodeAt forest p (fun n => n.withOpen false)

/-- The setExpanded, expand and collapse display operations of the
view: record or erase a path in the set of expanded paths. -/
def setExpandedState (st : RepoState) (p : TreePath) (b : Bool) : RepoState :=
  if b then { st with expanded := p :: st.expanded.filter (fun q => q ≠ p) }
  else { st with expanded := st.expanded.filter (fun q => q ≠ p) }

/-- The selection update performed through self.setCurrentIndex, seen
at the path level of this model. -/
def setCurrentPath (st : RepoState) (p : TreePath) : RepoState :=
  { st with current := p }

/-- Model of RepoTreeView._getCurrentIndex: the current index of the
selection model normalized to column 0.  Paths carry no column, so the
normalization is the identity here; the column form is treated in the
Sel namespace below. -/
def _getCurrentIndex (st : RepoState) : TreePath :=
  st.current

/-- Model of RepoTreeView.loadRepoTreeItem: assert that the item has
no parent yet, insert it into the model at the position under the
parent index, set its expanded state, and return the new index. -/
def loadRepoTreeItem (st : RepoState) (repoTreeItem : Rti) (expand : Bool)
    (position : Option Nat) (parentIndex : TreePath) :
    Except AssertErr (RepoState × TreePath) :=
  if repoTreeItem.parentItem then Except.error AssertErr.assertionFailed
  else
    let pr := insertItem st repoTreeItem position parentIndex
    Except.ok (setExpandedState pr.1 pr.2 expand, pr.2)

/-- Observable steps of openCurrentItem and closeCurrentItem, in the
order the view performs them. -/
inductive RepoEffect where
  | openItem (p : TreePath)
  | expandNode (p : TreePath)
  | removeChildren (p : TreePath)
  | closeItem (p : TreePath)
  | collapseNode (p : TreePath)

/-- Model of RepoTreeView.openCurrentItem: open the current item and
expand its display node.  The behavior with no resolvable current item
is unspecified in the excerpt and modelled as none. -/
def openCurrentItem (st : RepoState) : Option (RepoState × List RepoEffect) :=
  let p := _getCurrentIndex st
  (getNode st.forest p).map fun _ =>
    (setExpandedState { st with forest := openItemAt st.forest p } p true,
      [RepoEffect.openItem p, RepoEffect.expandNode p])

/-- Model of RepoTreeView.closeCurrentItem: remove all children of the
current item from the model first, which closes them as well, then
close the item itself, then collapse its display node.  The behavior
with no resolvable current item is unspecified in the excerpt and
modelled as none. -/
def closeCurrentItem (st : RepoState) : Option (RepoState × List RepoEffect) :=
  let p := _getCurrentIndex st
  (getNode st.forest p).map fun _ =>
    let stA := { st with forest := removeAllChildrenAtIndex st.forest p }
    let stB := { stA with forest := closeItemAt stA.forest p }
    (setExpandedState stB p false,
      [RepoEffect.removeChildren p, RepoEffect.closeItem p, RepoEffect.collapseNode p])

/-- Modelled from the spec: RepoTreeModel.findTopLevelItemIndex walks
up from an index to its top level ancestor, the node directly under
the invisible root. -/
def findTopLevelItemPath : TreePath → Option TreePath
  | [] => none
  | i :: _ => some [i]

/-- Model of RepoTreeView.removeCurrentFile: resolve the top level
ancestor of the current index and delete that subtree via the model.
The second component records which index was deleted. -/
def removeCurrentFile (st : RepoState) : Option (RepoState × TreePath) :=
  (findTopLevelItemPath (_getCurrentIndex st)).map fun topLevelPath =>
    (deleteItemByIndexState st topLevelPath, topLevelPath)

/-- Fuel driven walk for findFileRtiPath; the fuel is the length of
the path, which bounds the number of parent steps. -/
def findFileRtiAux (forest : List Rti) : Nat → TreePath → Option TreePath
  | 0, _ => none
  | _ + 1, [] => none
  | fuel + 1, i :: rest =>
    match getNode forest (i :: rest) with
    | none => none
    | some n =>
      if n.isFile then some (i :: rest)
      else findFileRtiAux forest fuel (i :: rest).dropLast

/-- Modelled from the spec: RepoTreeModel.findFileRtiIndex walks up
from an index to the closest ancestor, the index itself included, that
is a file RTI. -/
def findFileRtiPath (forest : List Rti) (p : TreePath) : Option TreePath :=
  findFileRtiAux forest p.length p

/-- Model of RepoTreeView.reloadFileOfCurrentItem: locate the file RTI
holding the current item, record its file name, concrete class,
sibling position and parent, delete it via the model, construct a
fresh item of the same class from the same file, insert it at the same
position under the same parent with expansion, and make it current. -/
def reloadFileOfCurrentItem (st : RepoState) : Option (RepoState × TreePath) :=
  (findFileRtiPath st.forest (_getCurrentIndex st)).bind fun fileRtiIndex =>
    (getNode st.forest fileRtiIndex).bind fun fileRti =>
      (fileRtiIndex.getLast?).bind fun position =>
        let fileRtiParentIndex := fileRtiIndex.dropLast
        let fileName := fileRti.fileName
        let rtiClass := fileRti.rtiClass
        let st1 := deleteItemByIndexState st fileRtiIndex
        let newRti := createFromFileName rtiClass fileName
        match loadRepoTreeItem st1 newRti true (some position) fileRtiParentIndex with
        | Except.error _ => none
        | Except.ok pr => some (setCurrentPath pr.1 pr.2, pr.2)

/-- Modelled from the spec: reload is remove-then-load-at-same-position
with the selection following the new node.  The file node ancestor of
the current item is deleted and a freshly constructed node of the same
concrete class from the same file name is inserted at the same sibling
position under the same parent, expanded, and made current. -/
def reloadFileOfCurrentItemSpec (st : RepoState) : Option (RepoState × TreePath) :=
  (findFileRtiPath st.forest (_getCurrentIndex st)).bind fun fp =>
    (getNode st.forest fp).bind fun fileRti =>
      (fp.getLast?).bind fun position =>
        let st1 := deleteItemByIndexState st fp
        let pr := insertItem st1 (createFromFileName fileRti.rtiClass fileRti.fileName)
          (some position) fp.dropLast
        some (setCurrentPath (setExpandedState pr.1 pr.2 true) pr.2, pr.2)

namespace Sel

/-- State of the Qt selection model of the view at column granularity:
the current index as a row path plus a column, and the selected rows.
Modelled from the spec: QItemSelectionModel is outside the excerpt. -/
structure SelState where
  currentRow : TreePath
  currentCol : Nat
  selectedRows : List TreePath

/-- Modelled from the spec: QItemSelectionModel.setCurrentIndex with
the flags ClearAndSelect and Rows makes the index current, clears the
previous selection and selects exactly the full row of the index. -/
def selectionSetCurrentIndex (st : SelState) (row : TreePath) (col : Nat) : SelState :=
  { st with currentRow := row, currentCol := col, selectedRows := [row] }

/-- Model of RepoTreeView.setCurrentIndex: delegate to the selection
model with ClearAndSelect and Rows. -/
def setCurrentIndex (st : SelState) (row : TreePath) (col : Nat) : SelState :=
  selectionSetCurrentIndex st row col

/-- Model of RepoTreeView._getCurrentIndex at column granularity: the
sibling of the current index in column 0, keeping the row and the
parent chain. -/
def _getCurrentIndex (st : SelState) : TreePath × Nat :=
  (st.currentRow, 0)

end Sel

end Repo

end Argos

namespace Argos

namespace Misc

theorem map_id_of_mem (f : Nat → Nat) (l : List Nat) (h : ∀ c ∈ l, f c = c) :
    l.map f = l := by
  induction l with
  | nil => rfl
  | cons x xs ih =>
    simp only [List.map_cons, h x (List.mem_cons_self x xs)]
    rw [ih fun c hc => h c (List.mem_cons_of_mem _ hc)]

theorem mem_collapseWhitespaceAux (b : Bool) (l : List Nat) :
    ∀ c ∈ collapseWhitespaceAux b l, c ∈ l ∨ c = 95 := by
  induction l generalizing b with
  | nil => intro c hc; simp [collapseWhitespaceAux] at hc
  | cons x xs ih =>
    intro c hc
    by_cases hx : isSpaceChar x
    · cases b with
      | true =>
        simp only [collapseWhitespaceAux, hx, if_true] at hc
        rcases ih true c hc with h | h
        · exact Or.inl (List.mem_cons_of_mem _ h)
        · exact Or.inr h
      | false =>
        simp only [collapseWhitespaceAux, hx, if_true] at hc
        rcases List.mem_cons.mp hc with h | h
        · exact Or.inr h
        · rcases ih true c h with h2 | h2
          · exact Or.inl (List.mem_cons_of_mem _ h2)
          · exact Or.inr h2
    · simp only [collapseWhitespaceAux, hx, if_false] at hc
      rcases List.mem_cons.mp hc with h | h
      · exact Or.inl (h ▸ List.mem_cons_self x xs)
      · rcases ih false c h with h2 | h2
        · exact Or.inl (List.mem_cons_of_mem _ h2)
        · exact Or.inr h2

theorem collapseWhitespaceAux_id (b : Bool) (l : List Nat)
    (h : ∀ c ∈ l, isSpaceChar c = false) : collapseWhitespaceAux b l = l := by
  induction l generalizing b with
  | nil => rfl
  | cons x xs ih =>
    have hx : isSpaceChar x = false := h x (List.mem_cons_self x xs)
    simp only [collapseWhitespaceAux, hx]
    simp only [Bool.false_eq_true, if_false]
    rw [ih false fun c hc => h c (List.mem_cons_of_mem _ hc)]

theorem mem_string_to_identifier (s : List Nat) :
    ∀ c ∈ string_to_identifier s, isLowerIdent c := by
  intro c hc
  unfold string_to_identifier at hc
  have hfil := List.mem_filter.mp hc
  have hident : isIdentChar c = true := hfil.2
  have hmem := hfil.1
  rcases List.mem_map.mp hmem with ⟨e, he, hrep⟩
  have hupper : ¬ (65 ≤ c ∧ c ≤ 90) := by
    rcases mem_collapseWhitespaceAux false (s.map lowerChar) e he with hme | hme
    · rcases List.mem_map.mp hme with ⟨d, _, hld⟩
      subst hrep
      unfold lowerChar at hld
      unfold replaceHyphen
      by_cases hd : 65 ≤ d ∧ d ≤ 90
      · rw [if_pos hd] at hld
        subst hld
        split <;> omega
      · rw [if_neg hd] at hld
        subst hld
        split <;> omega
    · subst hme
      subst hrep
      unfold replaceHyphen
      split <;> omega
  unfold isIdentChar at hident
  rw [decide_eq_true_eq] at hident
  unfold isLowerIdent
  omega

theorem string_to_identifier_fixed (l : List Nat)
    (h : ∀ c ∈ l, isLowerIdent c) : string_to_identifier l = l := by
  have hmap : l.map lowerChar = l := by
    apply map_id_of_mem
    intro c hc
    have := h c hc
    unfold isLowerIdent at this
    unfold lowerChar
    rw [if_neg]
    omega
  have hws : collapseWhitespace (l.map lowerChar) = l := by
    rw [hmap]
    apply collapseWhitespaceAux_id
    intro c hc
    have := h c hc
    unfold isLowerIdent at this
    unfold isSpaceChar
    simp only [decide_eq_false_iff_not]
    omega
  have hhyph : l.map replaceHyphen = l := by
    apply map_id_of_mem
    intro c hc
    have := h c hc
    unfold isLowerIdent at this
    unfold replaceHyphen
    rw [if_neg]
    omega
  have hfil : l.filter isIdentChar = l := by
    apply List.filter_eq_self.mpr
    intro c hc
    have := h c hc
    unfold isLowerIdent at this
    unfold isIdentChar
    rw [decide_eq_true_eq]
    omega
  unfold string_to_identifier collapseWhitespace
  unfold collapseWhitespace at hws
  rw [hws, hhyph, hfil]

/-- C9: string_to_identifier returns a string containing only
lowercase ASCII letters, digits and underscores, and it is idempotent:
applying it to its own output returns the output unchanged. -/
theorem string_to_identifier_charset_and_idempotent (s : List Nat) :
    (∀ c ∈ string_to_identifier s, isLowerIdent c) ∧
    string_to_identifier (string_to_identifier s) = string_to_identifier s := by
  refine ⟨mem_string_to_identifier s, ?_⟩
  exact string_to_identifier_fixed _ (mem_string_to_identifier s)

/-- Witness for C9 at the concrete input "Pea sdf-43q,!" given as code
points. -/
theorem string_to_identifier_charset_and_idempotent_witness :
    (∀ c ∈ string_to_identifier [80, 101, 97, 32, 115, 100, 102, 45, 52, 51, 113, 44, 33],
      isLowerIdent c) ∧
    string_to_identifier
        (string_to_identifier [80, 101, 97, 32, 115, 100, 102, 45, 52, 51, 113, 44, 33])
      = string_to_identifier [80, 101, 97, 32, 115, 100, 102, 45, 52, 51, 113, 44, 33] :=
  string_to_identifier_charset_and_idempotent
    [80, 101, 97, 32, 115, 100, 102, 45, 52, 51, 113, 44, 33]

/-- C10: prepend_point_to_extension always returns a string starting
with a point, is the identity on strings already starting with a point,
prepends a single point otherwise, and is idempotent. -/
theorem prepend_point_to_extension_props (s : List Nat) :
    startsWithPoint (prepend_point_to_extension s) = true ∧
    (startsWithPoint s = true → prepend_point_to_extension s = s) ∧
    (startsWithPoint s = false → prepend_point_to_extension s = 46 :: s) ∧
    prepend_point_to_extension (prepend_point_to_extension s) = prepend_point_to_extension s := by
  by_cases h : startsWithPoint s = true
  · refine ⟨?_, fun _ => ?_, fun hf => ?_, ?_⟩
    · simp [prepend_point_to_extension, h]
    · simp [prepend_point_to_extension, h]
    · rw [h] at hf; cases hf
    · simp [prepend_point_to_extension, h]
  · have hf : startsWithPoint s = false := by
      cases hb : startsWithPoint s
      · rfl
      · exact absurd hb h
    have hres : prepend_point_to_extension s = 46 :: s := by
      simp [prepend_point_to_extension, hf]
    refine ⟨?_, fun ht => ?_, fun _ => hres, ?_⟩
    · rw [hres]; rfl
    · rw [ht] at hf; cases hf
    · rw [hres]
      have : startsWithPoint (46 :: s) = true := rfl
      simp [prepend_point_to_extension, this, hres]

/-- Witness for C10 at the concrete input "dat" given as code points. -/
theorem prepend_point_to_extension_props_witness :
    startsWithPoint (prepend_point_to_extension [100, 97, 116]) = true ∧
    (startsWithPoint [100, 97, 116] = true →
      prepend_point_to_extension [100, 97, 116] = [100, 97, 116]) ∧
    (startsWithPoint [100, 97, 116] = false →
      prepend_point_to_extension [100, 97, 116] = 46 :: [100, 97, 116]) ∧
    prepend_point_to_extension (prepend_point_to_extension [100, 97, 116])
      = prepend_point_to_extension [100, 97, 116] :=
  prepend_point_to_extension_props [100, 97, 116]

end Misc

end Argos

namespace Argos

namespace Config

/-- C1: setModelData with a failing extraction logs the failure and
leaves the stored edit role value unchanged, performing no setData
call; with a successful extraction it performs exactly one
model.setData call with the extracted value and the edit role; and in
neither case does it mutate the node directly, bypassing the model. -/
theorem setModelData_commit_semantics {α : Type} (msg : String) (v cell : α) :
    (setModelData (EditorValue.invalidInput msg : EditorValue α)
        = [CfgEffect.logWarn msg]
      ∧ (setModelData (EditorValue.invalidInput msg : EditorValue α)).foldl
          applyCfgEffect cell = cell
      ∧ ((setModelData (EditorValue.invalidInput msg : EditorValue α)).filter
          isSetDataCall).length = 0)
    ∧ (setModelData (EditorValue.ok v)
        = [CfgEffect.setDataCall v Role.editRole]
      ∧ ((setModelData (EditorValue.ok v)).filter isSetDataCall).length = 1)
    ∧ ((setModelData (EditorValue.invalidInput msg : EditorValue α)).filter
        isNodeDirectWrite).length = 0
    ∧ ((setModelData (EditorValue.ok v)).filter isNodeDirectWrite).length = 0 := by
  refine ⟨⟨rfl, rfl, ?_⟩, ⟨rfl, ?_⟩, ?_, ?_⟩ <;>
    simp [setModelData, isSetDataCall, isNodeDirectWrite, List.filter]

/-- Witness for C1 at a concrete message, value and cell. -/
theorem setModelData_commit_semantics_witness :
    (setModelData (EditorValue.invalidInput "bad" : EditorValue Nat)
        = [CfgEffect.logWarn "bad"]
      ∧ (setModelData (EditorValue.invalidInput "bad" : EditorValue Nat)).foldl
          applyCfgEffect 5 = 5
      ∧ ((setModelData (EditorValue.invalidInput "bad" : EditorValue Nat)).filter
          isSetDataCall).length = 0)
    ∧ (setModelData (EditorValue.ok 7)
        = [CfgEffect.setDataCall 7 Role.editRole]
      ∧ ((setModelData (EditorValue.ok 7)).filter isSetDataCall).length = 1)
    ∧ ((setModelData (EditorValue.invalidInput "bad" : EditorValue Nat)).filter
        isNodeDirectWrite).length = 0
    ∧ ((setModelData (EditorValue.ok (7 : Nat))).filter isNodeDirectWrite).length = 0 :=
  setModelData_commit_semantics "bad" 7 5

/-- C6: closeEditor runs the finalize step of the delegate on the
editor before the base class close behavior, and finalizeEditor calls
editor.finalize() exactly when the editor is a CtiEditor, doing nothing
but logging for any other editor. -/
theorem closeEditor_finalizes_first (editor : Editor) (hint : Nat) :
    closeEditor editor hint
        = finalizeEditor editor ++ [FinEffect.baseCloseEditor editor hint]
    ∧ (FinEffect.finalizeCall editor ∈ finalizeEditor editor
        ↔ editor.isCtiEditor = true)
    ∧ (editor.isCtiEditor = false → finalizeEditor editor = [FinEffect.logDebugNotCti])
    ∧ (∀ e, FinEffect.finalizeCall e ∈ finalizeEditor editor → e = editor) := by
  refine ⟨rfl, ?_, ?_, ?_⟩
  · cases editor <;> simp [finalizeEditor, Editor.isCtiEditor]
  · cases editor <;> simp [finalizeEditor, Editor.isCtiEditor]
  · intro e he
    cases editor <;> simp [finalizeEditor] at he
    rw [he]

/-- Witness for C6 at a CtiEditor with id 0 and hint 3. -/
theorem closeEditor_finalizes_first_witness :
    closeEditor (Editor.ctiEditor 0) 3
        = finalizeEditor (Editor.ctiEditor 0)
            ++ [FinEffect.baseCloseEditor (Editor.ctiEditor 0) 3]
    ∧ (FinEffect.finalizeCall (Editor.ctiEditor 0) ∈ finalizeEditor (Editor.ctiEditor 0)
        ↔ (Editor.ctiEditor 0).isCtiEditor = true)
    ∧ ((Editor.ctiEditor 0).isCtiEditor = false →
        finalizeEditor (Editor.ctiEditor 0) = [FinEffect.logDebugNotCti])
    ∧ (∀ e, FinEffect.finalizeCall e ∈ finalizeEditor (Editor.ctiEditor 0) →
        e = Editor.ctiEditor 0) :=
  closeEditor_finalizes_first (Editor.ctiEditor 0) 3

/-- C8: paint performs the base class rendering exactly when the index
is not in the value column or the node declines to paint a custom
display; in the value column it fetches the edit role value via the
model and attempts the custom paint of the node. -/
theorem paint_base_fallback {α : Type} (colValue col : Nat) (v : α) (f : α → Bool) :
    (PaintEffect.basePaint ∈ paint colValue col v f
        ↔ (col ≠ colValue ∨ f v = false))
    ∧ (col = colValue →
        paint colValue col v f
          = [PaintEffect.fetchEditRole v, PaintEffect.customPaint (f v)]
              ++ (if f v then [] else [PaintEffect.basePaint]))
    ∧ (col ≠ colValue → paint colValue col v f = [PaintEffect.basePaint]) := by
  by_cases h : col = colValue
  · cases hf : f v <;>
      simp [paint, h, hf]
  · simp [paint, h]

/-- Witness for C8 in the value column with a node that declines to
paint. -/
theorem paint_base_fallback_witness :
    (PaintEffect.basePaint ∈ paint 1 1 (7 : Nat) (fun _ => false)
        ↔ ((1 : Nat) ≠ 1 ∨ (fun (_ : Nat) => false) 7 = false))
    ∧ ((1 : Nat) = 1 →
        paint 1 1 (7 : Nat) (fun _ => false)
          = [PaintEffect.fetchEditRole 7,
             PaintEffect.customPaint ((fun (_ : Nat) => false) 7)]
              ++ (if (fun (_ : Nat) => false) 7 then [] else [PaintEffect.basePaint]))
    ∧ ((1 : Nat) ≠ 1 → paint 1 1 (7 : Nat) (fun _ => false) = [PaintEffect.basePaint]) :=
  paint_base_fallback 1 1 7 (fun _ => false)

end Config

end Argos

namespace Argos

namespace Repo

@[simp] theorem Rti.children_withChildren (n : Rti) (cs : List Rti) :
    (n.withChildren cs).children = cs := by
  cases n; rfl

@[simp] theorem Rti.children_withOpen (n : Rti) (b : Bool) :
    (n.withOpen b).children = n.children := by
  cases n; rfl

@[simp] theorem Rti.isOpen_withOpen (n : Rti) (b : Bool) :
    (n.withOpen b).isOpen = b := by
  cases n; rfl

@[simp] theorem Rti.isOpen_withChildren (n : Rti) (cs : List Rti) :
    (n.withChildren cs).isOpen = n.isOpen := by
  cases n; rfl

@[simp] theorem createFromFileName_parentItem (c : Nat) (f : String) :
    (createFromFileName c f).parentItem = false := rfl

@[simp] theorem setExpandedState_forest (st : RepoState) (p : TreePath) (b : Bool) :
    (setExpandedState st p b).forest = st.forest := by
  unfold setExpandedState; split <;> rfl

@[simp] theorem setExpandedState_current (st : RepoState) (p : TreePath) (b : Bool) :
    (setExpandedState st p b).current = st.current := by
  unfold setExpandedState; split <;> rfl

@[simp] theorem setCurrentPath_forest (st : RepoState) (p : TreePath) :
    (setCurrentPath st p).forest = st.forest := rfl

@[simp] theorem setCurrentPath_current (st : RepoState) (p : TreePath) :
    (setCurrentPath st p).current = p := rfl

theorem modifyIdx_getElem {α : Type} (f : α → α) :
    ∀ (n : Nat) (l : List α), (modifyIdx f n l)[n]? = (l[n]?).map f := by
  intro n l
  induction l generalizing n with
  | nil => simp [modifyIdx]
  | cons x xs ih =>
    cases n with
    | zero => simp [modifyIdx]
    | succ m => simp [modifyIdx, ih]

theorem childrenAtParent_update (f : List Rti → List Rti) :
    ∀ (pp : TreePath) (forest cs : List Rti),
      childrenAtParent forest pp = some cs →
      childrenAtParent (updateChildrenAt forest pp f) pp = some (f cs) := by
  intro pp
  induction pp with
  | nil =>
    intro forest cs h
    simp only [childrenAtParent, Option.some.injEq] at h
    subst h
    simp [updateChildrenAt, childrenAtParent]
  | cons i rest ih =>
    intro forest cs h
    cases hfi : forest[i]? with
    | none =>
      simp only [childrenAtParent, hfi] at h
      exact Option.noConfusion h
    | some n =>
      simp only [childrenAtParent, hfi] at h
      simp only [updateChildrenAt, childrenAtParent, modifyIdx_getElem, hfi,
        Option.map_some', Rti.children_withChildren]
      exact ih n.children cs h

theorem childrenAtParent_append :
    ∀ (pp qq : TreePath) (forest : List Rti),
      childrenAtParent forest (pp ++ qq)
        = (childrenAtParent forest pp).bind fun cs => childrenAtParent cs qq := by
  intro pp
  induction pp with
  | nil => intro qq forest; simp [childrenAtParent]
  | cons i rest ih =>
    intro qq forest
    cases hfi : forest[i]? with
    | none =>
      simp only [List.cons_append, childrenAtParent, hfi]
      rfl
    | some n =>
      simp only [List.cons_append, childrenAtParent, hfi]
      exact ih qq n.children

theorem childrenAtParent_single (cs : List Rti) (t : Nat) :
    childrenAtParent cs [t] = (cs[t]?).map Rti.children := by
  cases ht : cs[t]? with
  | none => simp only [childrenAtParent, ht, Option.map_none']
  | some n => simp only [childrenAtParent, ht, Option.map_some']

theorem getNode_concat (forest : List Rti) (pp : TreePath) (pos : Nat) :
    getNode forest (pp ++ [pos]) = (childrenAtParent forest pp).bind fun cs => cs[pos]? := by
  simp [getNode, List.getLast?_concat, List.dropLast_concat]

theorem updateNodeAt_concat (forest : List Rti) (pp : TreePath) (pos : Nat) (f : Rti → Rti) :
    updateNodeAt forest (pp ++ [pos]) f = updateChildrenAt forest pp (modifyIdx f pos) := by
  simp [updateNodeAt, List.getLast?_concat, List.dropLast_concat]

theorem deleteAtPath_concat (forest : List Rti) (pp : TreePath) (pos : Nat) :
    deleteAtPath forest (pp ++ [pos]) = updateChildrenAt forest pp (removeAt pos) := by
  simp [deleteAtPath, List.getLast?_concat, List.dropLast_concat]

theorem getNode_updateChildren_concat (f : List Rti → List Rti) (forest cs : List Rti)
    (pp : TreePath) (pos : Nat) (h : childrenAtParent forest pp = some cs) :
    getNode (updateChildrenAt forest pp f) (pp ++ [pos]) = (f cs)[pos]? := by
  rw [getNode_concat, childrenAtParent_update f pp forest cs h]
  rfl

theorem getNode_updateNodeAt (f : Rti → Rti) (forest : List Rti) (pp : TreePath)
    (pos : Nat) (n : Rti) (h : getNode forest (pp ++ [pos]) = some n) :
    getNode (updateNodeAt forest (pp ++ [pos]) f) (pp ++ [pos]) = some (f n) := by
  rw [getNode_concat] at h
  obtain ⟨cs, hcs, hpos⟩ := Option.bind_eq_some.mp h
  rw [updateNodeAt_concat, getNode_updateChildren_concat _ _ _ _ _ hcs,
    modifyIdx_getElem, hpos]
  rfl

theorem removeAt_length {α : Type} :
    ∀ (n : Nat) (l : List α), n < l.length → (removeAt n l).length = l.length - 1 := by
  intro n l
  induction l generalizing n with
  | nil => intro h; simp at h
  | cons x xs ih =>
    intro h
    cases n with
    | zero => simp [removeAt]
    | succ m =>
      simp only [removeAt, List.length_cons]
      have hm : m < xs.length := by
        simp only [List.length_cons] at h
        omega
      have := ih m hm
      omega

theorem insertAt_getElem_self {α : Type} :
    ∀ (n : Nat) (a : α) (l : List α), n ≤ l.length → (insertAt n a l)[n]? = some a := by
  intro n
  induction n with
  | zero => intro a l _; cases l <;> simp [insertAt]
  | succ m ih =>
    intro a l h
    cases l with
    | nil => simp at h
    | cons x xs =>
      simp only [insertAt, List.getElem?_cons_succ]
      apply ih
      simp only [List.length_cons] at h
      omega

theorem getNode_no_descendants (forest : List Rti) (pp : TreePath) (pos : Nat) (n : Rti)
    (h : getNode forest (pp ++ [pos]) = some n) (hc : n.children = []) :
    ∀ q : TreePath, q ≠ [] → getNode forest ((pp ++ [pos]) ++ q) = none := by
  have h1 : childrenAtParent forest (pp ++ [pos]) = some [] := by
    rw [getNode_concat] at h
    obtain ⟨cs, hcs, hpos⟩ := Option.bind_eq_some.mp h
    rw [childrenAtParent_append pp [pos] forest, hcs]
    simp [childrenAtParent_single, hpos, hc]
  intro q hq
  induction q using List.reverseRecOn with
  | nil => exact absurd rfl hq
  | append_singleton q0 t _ =>
    rw [← List.append_assoc, getNode_concat, childrenAtParent_append, h1]
    cases q0 with
    | nil => simp [childrenAtParent]
    | cons j q0t => simp [childrenAtParent]

/-- C3: after setCurrentIndex the selection set is exactly the row of
the index, the current index resolved by the view is the index
normalized to column 0, and the current row is always among the
selected rows. -/
theorem setCurrentIndex_selects_row (st : Sel.SelState) (row : TreePath) (col : Nat) :
    (Sel.setCurrentIndex st row col).selectedRows = [row]
    ∧ Sel._getCurrentIndex (Sel.setCurrentIndex st row col) = (row, 0)
    ∧ (Sel.setCurrentIndex st row col).currentRow
        ∈ (Sel.setCurrentIndex st row col).selectedRows := by
  refine ⟨rfl, rfl, ?_⟩
  simp [Sel.setCurrentIndex, Sel.selectionSetCurrentIndex]

/-- Witness for C3 at a concrete selection state and index. -/
theorem setCurrentIndex_selects_row_witness :
    (Sel.setCurrentIndex ⟨[0], 2, [[0], [1]]⟩ [1, 0] 3).selectedRows = [[1, 0]]
    ∧ Sel._getCurrentIndex (Sel.setCurrentIndex ⟨[0], 2, [[0], [1]]⟩ [1, 0] 3) = ([1, 0], 0)
    ∧ (Sel.setCurrentIndex ⟨[0], 2, [[0], [1]]⟩ [1, 0] 3).currentRow
        ∈ (Sel.setCurrentIndex ⟨[0], 2, [[0], [1]]⟩ [1, 0] 3).selectedRows :=
  setCurrentIndex_selects_row ⟨[0], 2, [[0], [1]]⟩ [1, 0] 3

/-- C5: removeCurrentFile resolves and deletes the top level ancestor
of the current index: for two current indices below the same top level
node it deletes the same node and produces the same tree, and the
deleted index is the top level ancestor of the current index. -/
theorem removeCurrentFile_target_independent (st : RepoState) (i : Nat) (r1 r2 : TreePath)
    (_h1 : getNode st.forest (i :: r1) ≠ none) (_h2 : getNode st.forest (i :: r2) ≠ none) :
    (removeCurrentFile { st with current := i :: r1 }).map (fun pr => (pr.1.forest, pr.2))
      = (removeCurrentFile { st with current := i :: r2 }).map (fun pr => (pr.1.forest, pr.2))
    ∧ (removeCurrentFile { st with current := i :: r1 }).map (fun pr => pr.2)
        = some [i] := by
  constructor <;>
    simp [removeCurrentFile, _getCurrentIndex, findTopLevelItemPath, deleteItemByIndexState]

@[simp] theorem forest_withForest (s : RepoState) (x : List Rti) :
    ({ s with forest := x } : RepoState).forest = x := rfl

@[simp] theorem current_withForest (s : RepoState) (x : List Rti) :
    ({ s with forest := x } : RepoState).current = s.current := rfl

theorem openCurrentItem_eq (st : RepoState) (m : Rti)
    (h : getNode st.forest st.current = some m) :
    openCurrentItem st
      = some (setExpandedState { st with forest := openItemAt st.forest st.current }
            st.current true,
          [RepoEffect.openItem st.current, RepoEffect.expandNode st.current]) := by
  simp only [openCurrentItem, _getCurrentIndex, h, Option.map_some']

theorem closeCurrentItem_eq (st : RepoState) (m : Rti)
    (h : getNode st.forest st.current = some m) :
    closeCurrentItem st
      = some (setExpandedState
            { st with forest :=
                closeItemAt (removeAllChildrenAtIndex st.forest st.current) st.current }
            st.current false,
          [RepoEffect.removeChildren st.current, RepoEffect.closeItem st.current,
            RepoEffect.collapseNode st.current]) := by
  simp only [closeCurrentItem, _getCurrentIndex, h, Option.map_some']

/-- C4: closeCurrentItem removes all descendants of the current item
from the model first, then closes the item, then collapses the display
node, in that order of observable steps; after openCurrentItem
followed by closeCurrentItem on the same current item, the item is
closed and has no descendants left in the model at all, so no open
descendant resource remains. -/
theorem openClose_no_open_descendants (st : RepoState) (pp : TreePath) (pos : Nat) (n : Rti)
    (hcur : st.current = pp ++ [pos])
    (hget : getNode st.forest st.current = some n) :
    ∃ st1 tr1 st2,
      openCurrentItem st = some (st1, tr1)
      ∧ closeCurrentItem st1
          = some (st2, [RepoEffect.removeChildren st.current,
              RepoEffect.closeItem st.current, RepoEffect.collapseNode st.current])
      ∧ (∃ n2, getNode st2.forest st.current = some n2
          ∧ n2.isOpen = false ∧ n2.children = [])
      ∧ (∀ q : TreePath, q ≠ [] → getNode st2.forest (st.current ++ q) = none) := by
  have hget' : getNode st.forest (pp ++ [pos]) = some n := by
    rw [← hcur]; exact hget
  have hopen := openCurrentItem_eq st n hget
  have hget1 : getNode
      (setExpandedState { st with forest := openItemAt st.forest st.current }
        st.current true).forest
      (setExpandedState { st with forest := openItemAt st.forest st.current }
        st.current true).current
      = some (n.withOpen true) := by
    simp only [setExpandedState_forest, setExpandedState_current, forest_withForest,
      current_withForest]
    rw [hcur]
    simp only [openItemAt]
    exact getNode_updateNodeAt _ _ _ _ _ hget'
  have hclose := closeCurrentItem_eq _ _ hget1
  have hcur1 : (setExpandedState { st with forest := openItemAt st.forest st.current }
      st.current true).current = st.current := by
    simp only [setExpandedState_current, current_withForest]
  rw [hcur1] at hclose
  have hfinal : getNode
      (closeItemAt
        (removeAllChildrenAtIndex (openItemAt st.forest (pp ++ [pos])) (pp ++ [pos]))
        (pp ++ [pos])) (pp ++ [pos])
      = some (((n.withOpen true).withChildren []).withOpen false) := by
    simp only [openItemAt, removeAllChildrenAtIndex, closeItemAt]
    exact getNode_updateNodeAt _ _ _ _ _
      (getNode_updateNodeAt _ _ _ _ _ (getNode_updateNodeAt _ _ _ _ _ hget'))
  refine ⟨_, _, _, hopen, hclose, ?_, ?_⟩
  · refine ⟨((n.withOpen true).withChildren []).withOpen false, ?_, by simp, by simp⟩
    simp only [setExpandedState_forest, setExpandedState_current, forest_withForest,
      current_withForest]
    rw [hcur]
    exact hfinal
  · intro q hq
    simp only [setExpandedState_forest, setExpandedState_current, forest_withForest,
      current_withForest]
    rw [hcur]
    exact getNode_no_descendants _ pp pos _ hfinal (by simp) q hq

/-- C2: reloadFileOfCurrentItem is the remove-then-load composition
described by the spec: it deletes the file node ancestor of the
current item and inserts a freshly constructed node of the same
concrete class from the same file name at the same sibling position
under the same parent, and that node becomes the current item. -/
theorem reloadFileOfCurrentItem_refines (st : RepoState) (pp : TreePath) (pos : Nat)
    (fileRti : Rti)
    (hfind : findFileRtiPath st.forest (_getCurrentIndex st) = some (pp ++ [pos]))
    (hget : getNode st.forest (pp ++ [pos]) = some fileRti) :
    ∃ st2,
      reloadFileOfCurrentItem st = some (st2, pp ++ [pos])
      ∧ reloadFileOfCurrentItemSpec st = reloadFileOfCurrentItem st
      ∧ getNode st2.forest (pp ++ [pos])
          = some ((createFromFileName fileRti.rtiClass fileRti.fileName).withParent true)
      ∧ st2.current = pp ++ [pos] := by
  have hfind' : findFileRtiPath st.forest st.current = some (pp ++ [pos]) := hfind
  have hget2 : (childrenAtParent st.forest pp).bind (fun cs => cs[pos]?) = some fileRti := by
    rw [← getNode_concat]
    exact hget
  obtain ⟨cs, hcs, hpos⟩ := Option.bind_eq_some.mp hget2
  have hlt : pos < cs.length := by
    rcases List.getElem?_eq_some.mp hpos with ⟨hl, _⟩
    exact hl
  have hcs1 : childrenAtParent (updateChildrenAt st.forest pp (removeAt pos)) pp
      = some (removeAt pos cs) :=
    childrenAtParent_update (removeAt pos) pp st.forest cs hcs
  have hlen : (removeAt pos cs).length = cs.length - 1 := removeAt_length pos cs hlt
  have hmin2 : min pos (cs.length - 1) = pos := by omega
  have hfin : getNode
      (updateChildrenAt (updateChildrenAt st.forest pp (removeAt pos)) pp
        (insertAt pos ((createFromFileName fileRti.rtiClass fileRti.fileName).withParent true)))
      (pp ++ [pos])
      = some ((createFromFileName fileRti.rtiClass fileRti.fileName).withParent true) := by
    rw [getNode_updateChildren_concat _ _ _ _ _ hcs1]
    exact insertAt_getElem_self pos _ (removeAt pos cs) (by omega)
  have hrun : reloadFileOfCurrentItem st
      = some (setCurrentPath (setExpandedState
          ⟨updateChildrenAt (updateChildrenAt st.forest pp (removeAt pos)) pp
              (insertAt pos
                ((createFromFileName fileRti.rtiClass fileRti.fileName).withParent true)),
            st.current, st.expanded⟩
          (pp ++ [pos]) true) (pp ++ [pos]), pp ++ [pos]) := by
    simp only [reloadFileOfCurrentItem, _getCurrentIndex, hfind', Option.some_bind, hget,
      List.getLast?_concat, List.dropLast_concat, deleteItemByIndexState, deleteAtPath_concat,
      loadRepoTreeItem, createFromFileName_parentItem, Bool.false_eq_true, if_false,
      insertItem, forest_withForest, hcs1, Option.getD_some, hlen, hmin2]
  have hrunSpec : reloadFileOfCurrentItemSpec st
      = some (setCurrentPath (setExpandedState
          ⟨updateChildrenAt (updateChildrenAt st.forest pp (removeAt pos)) pp
              (insertAt pos
                ((createFromFileName fileRti.rtiClass fileRti.fileName).withParent true)),
            st.current, st.expanded⟩
          (pp ++ [pos]) true) (pp ++ [pos]), pp ++ [pos]) := by
    simp only [reloadFileOfCurrentItemSpec, _getCurrentIndex, hfind', Option.some_bind, hget,
      List.getLast?_concat, List.dropLast_concat, deleteItemByIndexState, deleteAtPath_concat,
      insertItem, forest_withForest, hcs1, Option.getD_some, hlen, hmin2]
  refine ⟨_, hrun, by rw [hrunSpec, hrun], ?_, rfl⟩
  exact hfin

/-- Witness for C2 on a tree with one file node holding one child, the
child being the current item. -/
theorem reloadFileOfCurrentItem_refines_witness :
    ∃ st2,
      reloadFileOfCurrentItem { forest := [Rti.mk 0 "a.dat" true true false
          [Rti.mk 1 "sub" false false true []]], current := [0, 0], expanded := [] :
        RepoState } = some (st2, [0])
      ∧ reloadFileOfCurrentItemSpec { forest := [Rti.mk 0 "a.dat" true true false
            [Rti.mk 1 "sub" false false true []]], current := [0, 0], expanded := [] :
          RepoState }
        = reloadFileOfCurrentItem { forest := [Rti.mk 0 "a.dat" true true false
            [Rti.mk 1 "sub" false false true []]], current := [0, 0], expanded := [] :
          RepoState }
      ∧ getNode st2.forest [0]
          = some ((createFromFileName 0 "a.dat").withParent true)
      ∧ st2.current = [0] :=
  reloadFileOfCurrentItem_refines
    { forest := [Rti.mk 0 "a.dat" true true false [Rti.mk 1 "sub" false false true []]],
      current := [0, 0], expanded := [] } [] 0
    (Rti.mk 0 "a.dat" true true false [Rti.mk 1 "sub" false false true []]) rfl rfl

/-- Witness for C4 on a one file tree with one child below the file
node, the file node being current. -/
theorem openClose_no_open_descendants_witness :
    ∃ st1 tr1 st2,
      openCurrentItem { forest := [Rti.mk 0 "a.dat" true false false
          [Rti.mk 1 "a.dat" false true true []]], current := [0], expanded := [] :
        RepoState } = some (st1, tr1)
      ∧ closeCurrentItem st1
          = some (st2, [RepoEffect.removeChildren [0],
              RepoEffect.closeItem [0], RepoEffect.collapseNode [0]])
      ∧ (∃ n2, getNode st2.forest [0] = some n2
          ∧ n2.isOpen = false ∧ n2.children = [])
      ∧ (∀ q : TreePath, q ≠ [] → getNode st2.forest ([0] ++ q) = none) :=
  openClose_no_open_descendants
    { forest := [Rti.mk 0 "a.dat" true false false [Rti.mk 1 "a.dat" false true true []]],
      current := [0], expanded := [] } [] 0
    (Rti.mk 0 "a.dat" true false false [Rti.mk 1 "a.dat" false true true []]) rfl rfl

/-- Witness for C5 on a two level tree whose file node at row 0 has
one child, comparing the file node itself and its child as current
items. -/
theorem removeCurrentFile_target_independent_witness :
    (removeCurrentFile { forest := [Rti.mk 0 "a.dat" true false false
          [Rti.mk 1 "a.dat" false false true []]], current := [0], expanded := [] :
        RepoState }).map (fun pr => (pr.1.forest, pr.2))
      = (removeCurrentFile { forest := [Rti.mk 0 "a.dat" true false false
            [Rti.mk 1 "a.dat" false false true []]], current := [0, 0], expanded := [] :
          RepoState }).map (fun pr => (pr.1.forest, pr.2))
    ∧ (removeCurrentFile { forest := [Rti.mk 0 "a.dat" true false false
          [Rti.mk 1 "a.dat" false false true []]], current := [0], expanded := [] :
        RepoState }).map (fun pr => pr.2) = some [0] := by
  exact removeCurrentFile_target_independent
    { forest := [Rti.mk 0 "a.dat" true false false [Rti.mk 1 "a.dat" false false true []]],
      current := [0], expanded := [] } 0 [] [0]
    (fun h => Option.noConfusion h) (fun h => Option.noConfusion h)

end Repo

end Argos

namespace Argos

/-- C7: precondition violations are fatal assertion failures:
createEditor with an invalid index returns the assertion failure
before any node is retrieved, and loadRepoTreeItem with an item that
already has a parent fails the same way before any insertion; under a
valid index and a parentless item the assertions do not fire and both
operations proceed normally. -/
theorem precondition_assertions_fail_fast (cti : Config.CfgNode) (st : Repo.RepoState)
    (item : Repo.Rti) (expand : Bool) (position : Option Nat)
    (parentIndex : Repo.TreePath) :
    Config.createEditor cti Config.QModelIndex.invalid
        = ([], Except.error AssertErr.assertionFailed)
    ∧ (∀ r c, Config.createEditor cti (Config.QModelIndex.valid r c)
        = ([Config.DelegateEffect.getItemCall, Config.DelegateEffect.ctiCreateEditorCall],
            Except.ok cti.builtEditor))
    ∧ (item.parentItem = true →
        Repo.loadRepoTreeItem st item expand position parentIndex
          = Except.error AssertErr.assertionFailed)
    ∧ (item.parentItem = false →
        ∃ st2 idx, Repo.loadRepoTreeItem st item expand position parentIndex
          = Except.ok (st2, idx)) := by
  refine ⟨rfl, fun r c => rfl, fun h => ?_, fun h => ?_⟩
  · simp [Repo.loadRepoTreeItem, h]
  · simp only [Repo.loadRepoTreeItem, h, Bool.false_eq_true, if_false]
    exact ⟨_, _, rfl⟩

/-- Witness for C7 at a concrete node, state and parentless item. -/
theorem precondition_assertions_fail_fast_witness :
    Config.createEditor ⟨Config.Editor.ctiEditor 4⟩ Config.QModelIndex.invalid
        = ([], Except.error AssertErr.assertionFailed)
    ∧ (∀ r c, Config.createEditor ⟨Config.Editor.ctiEditor 4⟩ (Config.QModelIndex.valid r c)
        = ([Config.DelegateEffect.getItemCall, Config.DelegateEffect.ctiCreateEditorCall],
            Except.ok (Config.Editor.ctiEditor 4)))
    ∧ ((Repo.createFromFileName 0 "a.dat").parentItem = true →
        Repo.loadRepoTreeItem ⟨[], [], []⟩ (Repo.createFromFileName 0 "a.dat") false none []
          = Except.error AssertErr.assertionFailed)
    ∧ ((Repo.createFromFileName 0 "a.dat").parentItem = false →
        ∃ st2 idx, Repo.loadRepoTreeItem ⟨[], [], []⟩
            (Repo.createFromFileName 0 "a.dat") false none []
          = Except.ok (st2, idx)) :=
  precondition_assertions_fail_fast ⟨Config.Editor.ctiEditor 4⟩ ⟨[], [], []⟩
    (Repo.createFromFileName 0 "a.dat") false none []

end Argos
